import Mathlib

/-!
Verification of the interview-analysis pipeline (`intv_comp`).

Shallow embedding of the core algorithmic components of
`src/intv_comp/analyze/analyze_interviews.py` and
`src/intv_comp/analyze/message_filter.py`:

* the token estimator `_estimate_token_count` (character-count fallback
  `len(text) // 4`; the optional `tiktoken` path is an absent external
  collaborator, and §6 of the design documents the fallback as the
  estimator's contract),
* the token-bounded chunker `chunk_messages_for_llm`,
* the chronological sequencer (`build_global_transcript_df` /
  `group_messages_by_session`, which delegate to pandas `sort_values`),
* the hierarchical compressor `compress_chunk_summaries`,
* the tagged-section extractor `extract_tagged_section`,
* the relevance scorer/filter (`calculate_relevance_score`,
  `filter_messages_by_relevance`).

Python `float` scores are modelled as `ℚ`; all score constants in the source
(0.1, 0.2, 0.4, 0.6, 0.8, 0.05, 1.0) and the coarse bounds stated about them
are exact at this granularity.  Python strings are modelled as Lean `String`
(a list of unicode code points, matching Python `len` semantics).
-/

/-- One row of the messages table: `{session_id, timestamp, role, content}`.
Timestamps are modelled as naturals (the only requirement the source places
on them is sortability; serialization uses their decimal form). -/
structure Utt where
  session_id : String
  timestamp : Nat
  role : String
  content : String
deriving DecidableEq

/-- `_estimate_token_count` (analyze_interviews.py:153-183): the
character-count estimate `len(text) // 4` used when no exact tokenizer
backend is available (the `tiktoken` import is an optional external
collaborator; the repository's own logic is this fallback). -/
def _estimate_token_count (text : String) : Nat :=
  text.length / 4

/-- The per-utterance serialized line `f"[{timestamp}] {role}: {message}"`
(analyze_interviews.py:208, also :137). -/
def serialize_line (u : Utt) : String :=
  "[" ++ toString u.timestamp ++ "] " ++ u.role ++ ": " ++ u.content

/-- The loop body of `chunk_messages_for_llm` (analyze_interviews.py:204-244),
with the mutable `chunks` list made the result and the mutable
`current_chunk_text` accumulator made the extra argument.  Branches, in
source order: oversized line → flush and emit standalone; empty accumulator
→ start it with the line; combined estimate over budget → flush, restart
with the line; otherwise newline-append the line. -/
def chunk_go (max_tokens_per_chunk : Nat) : List Utt → String → List String
  | [], cur => if cur = "" then [] else [cur]
  | u :: rest, cur =>
    let line := serialize_line u
    let line_tokens := _estimate_token_count line
    if line_tokens > max_tokens_per_chunk then
      (if cur = "" then [] else [cur]) ++ line :: chunk_go max_tokens_per_chunk rest ""
    else if cur = "" then
      chunk_go max_tokens_per_chunk rest line
    else if _estimate_token_count cur + line_tokens > max_tokens_per_chunk then
      cur :: chunk_go max_tokens_per_chunk rest line
    else
      chunk_go max_tokens_per_chunk rest (cur ++ "\n" ++ line)

/-- `chunk_messages_for_llm` (analyze_interviews.py:186-247): greedy
single-pass split of the time-ordered rows into newline-joined text chunks. -/
def chunk_messages_for_llm (sorted_messages : List Utt) (max_tokens_per_chunk : Nat) :
    List String :=
  chunk_go max_tokens_per_chunk sorted_messages ""

/-- Newline-joining of an accumulator kept as a list of lines:
`joinNl [l1, ..., lk] = l1 ++ "\n" ++ ... ++ "\n" ++ lk`, the string the
source builds by repeated `current_chunk_text + "\n" + line`. -/
def joinNl : List String → String
  | [] => ""
  | [s] => s
  | s :: t :: rest => s ++ "\n" ++ joinNl (t :: rest)

/-- Line-level mirror of `chunk_go`: the accumulator is kept as the list of
lines it holds (its text is `joinNl acc`), and each emitted chunk is the
list of utterance lines it serializes.  `chunk_go_eq_map_joinNl` below
proves it equal, chunk by chunk, to the string-level source loop. -/
def chunkL_go (max_tokens_per_chunk : Nat) : List Utt → List String → List (List String)
  | [], acc => if acc = [] then [] else [acc]
  | u :: rest, acc =>
    let line := serialize_line u
    if _estimate_token_count line > max_tokens_per_chunk then
      (if acc = [] then [] else [acc]) ++ [line] :: chunkL_go max_tokens_per_chunk rest []
    else if acc = [] then
      chunkL_go max_tokens_per_chunk rest [line]
    else if _estimate_token_count (joinNl acc) + _estimate_token_count line > max_tokens_per_chunk then
      acc :: chunkL_go max_tokens_per_chunk rest [line]
    else
      chunkL_go max_tokens_per_chunk rest (acc ++ [line])

/-- The chunker, viewed at the granularity of utterance lines. -/
def chunk_lines (sorted_messages : List Utt) (max_tokens_per_chunk : Nat) :
    List (List String) :=
  chunkL_go max_tokens_per_chunk sorted_messages []

/-- The behavior of the pandas call `df.sort_values(TIMESTAMP_COL)` that both
sequencer functions delegate to.  pandas is an external collaborator; its
documented contract for the default `kind='quicksort'` is that the returned
frame is the rows permuted so the sort column is non-decreasing, and that
quicksort is *not* a stable sort — so any non-decreasing permutation is an
admissible result.  (Modelled as a relation for that reason.) -/
def sort_values_by_timestamp (input output : List Utt) : Prop :=
  output.Perm input ∧ output.Pairwise (fun a b => a.timestamp ≤ b.timestamp)

/-- `build_global_transcript_df` (analyze_interviews.py:141-150): the single
statement `messages_df.sort_values(TIMESTAMP_COL)` (the trailing
`reset_index(drop=True)` only renumbers rows), so its admissible outputs are
exactly those of the pandas sort. -/
def build_global_transcript_df (input output : List Utt) : Prop :=
  sort_values_by_timestamp input output

/-- `group_messages_by_session` (analyze_interviews.py:121-127): `groupby`
keeps each session's rows in input order (the group with id `sid` is the
sublist `input.filter (session_id = sid)`), and each group is then passed
through the same `sort_values(TIMESTAMP_COL)` call. -/
def group_messages_by_session (input : List Utt) (output : String → List Utt) : Prop :=
  ∀ sid : String,
    sort_values_by_timestamp (input.filter (fun u => u.session_id == sid)) (output sid)

/-- `DEFAULT_COMPRESSION_MAX_ROUNDS` (analyze_interviews.py:47). -/
def DEFAULT_COMPRESSION_MAX_ROUNDS : Nat := 2

/-- `DEFAULT_COMPRESSION_BATCH_SIZE` (analyze_interviews.py:48). -/
def DEFAULT_COMPRESSION_BATCH_SIZE : Nat := 10

/-- The system prompt of the per-batch re-summarization call
(analyze_interviews.py:317-320). -/
def compression_system_prompt : String :=
  "あなたはリーガルテック領域の調査アナリストです。" ++
  "複数の部分サマリから重複を削り、重要な論点だけを残して要約してください。"

/-- The user prompt of the per-batch re-summarization call: the f-string
`batch_prompt` (analyze_interviews.py:300-314) around
`batch_text = "\n\n---\n\n".join(batch)`. -/
def build_compression_batch_prompt (batch : List String) : String :=
  "以下はインタビューログを分割して得られた部分分析結果の一部です。\n" ++
  "複数のサマリを統合し、**重複を減らしつつ重要な論点を残す形で**日本語の箇条書きに要約してください。\n" ++
  "\n" ++
  "- 法整備・制度設計の観点で重要なポイント\n" ++
  "- 暗黙の前提や制度の隙間\n" ++
  "- 追加で検討すべき示唆\n" ++
  "\n" ++
  "出力は 1 つのまとまったサマリのみとし、できるだけ簡潔にしてください。\n" ++
  "\n" ++
  "---\n" ++
  "## 統合対象サマリ\n" ++
  "\n" ++
  String.intercalate "\n\n---\n\n" batch ++
  "\n"

/-- One compression round (analyze_interviews.py:294-325): the Python loop
`for i in range(0, len(current), batch_size)` takes the consecutive slices
`current[i : i + batch_size]`, skips empty slices (`if not batch: continue`),
and replaces each remaining batch by one `llm.chat_completion` summary.
`chat` is the opaque external text-generation collaborator
(`LLMClient.chat_completion`), passed `(system_prompt, user_prompt)`. -/
def compress_round (chat : String → String → String) (current : List String) : List String :=
  ((List.range
      ((current.length + DEFAULT_COMPRESSION_BATCH_SIZE - 1) / DEFAULT_COMPRESSION_BATCH_SIZE)).map
    (fun i => (current.drop (DEFAULT_COMPRESSION_BATCH_SIZE * i)).take DEFAULT_COMPRESSION_BATCH_SIZE)).filterMap
    (fun batch =>
      if batch.isEmpty then none
      else some (chat compression_system_prompt (build_compression_batch_prompt batch)))

/-- The round loop `for round_index in range(max_rounds)` of
`compress_chunk_summaries` (analyze_interviews.py:289-337), with the
remaining number of rounds as fuel: stop on a single-element level, run one
round, stop early once the re-estimated joined size fits the budget. -/
def compress_loop (chat : String → String → String) (max_tokens_for_global_prompt : Nat) :
    Nat → List String → List String
  | 0, current => current
  | rounds + 1, current =>
    if current.length = 1 then current
    else
      let next_level := compress_round chat current
      if _estimate_token_count (String.intercalate "\n\n" next_level)
          ≤ max_tokens_for_global_prompt then next_level
      else compress_loop chat max_tokens_for_global_prompt rounds next_level

/-- `compress_chunk_summaries` (analyze_interviews.py:250-339): return empty
input unchanged; return the input unchanged when the `"\n\n"`-joined text
already fits the budget; otherwise run at most
`DEFAULT_COMPRESSION_MAX_ROUNDS` compression rounds and return the last
level produced. -/
def compress_chunk_summaries (chat : String → String → String)
    (chunk_summaries : List String) (max_tokens_for_global_prompt : Nat) : List String :=
  if chunk_summaries = [] then chunk_summaries
  else if _estimate_token_count (String.intercalate "\n\n" chunk_summaries)
      ≤ max_tokens_for_global_prompt then chunk_summaries
  else
    compress_loop chat max_tokens_for_global_prompt DEFAULT_COMPRESSION_MAX_ROUNDS chunk_summaries

/-- Python `str.isspace` / regex `\s` code points: the characters stripped by
`str.strip()` and accepted by the `\s` character class of the third
irrelevant pattern. -/
def isPySpace (c : Char) : Bool :=
  let n := c.toNat
  (9 ≤ n && n ≤ 13) || (28 ≤ n && n ≤ 31) || n == 32 || n == 0x85 || n == 0xa0 ||
  n == 0x1680 || (0x2000 ≤ n && n ≤ 0x200a) || n == 0x2028 || n == 0x2029 ||
  n == 0x202f || n == 0x205f || n == 0x3000

/-- Python `str.strip()`: drop leading and trailing whitespace. -/
def pyStrip (s : String) : String :=
  String.mk (((s.data.dropWhile isPySpace).reverse.dropWhile isPySpace).reverse)

/-- Index of the first occurrence of `pat` in `s` (leftmost position at which
`pat` is a prefix of the remaining suffix), or `none`. -/
def findSub (pat : List Char) : List Char → Option Nat
  | [] => if pat.isPrefixOf ([] : List Char) then some 0 else none
  | c :: rest =>
    if pat.isPrefixOf (c :: rest) then some 0
    else (findSub pat rest).map (· + 1)

/-- The opening delimiter `[tag]` of a tagged region. -/
def region_open (tag : String) : String := "[" ++ tag ++ "]"

/-- The closing delimiter `[/tag]` of a tagged region. -/
def region_close (tag : String) : String := "[/" ++ tag ++ "]"

/-- `extract_tagged_section` (analyze_interviews.py:516-522): the regex
`re.compile(rf"\[{tag}\](.*?)\[/{tag}\]", re.DOTALL).search(text)` finds the
leftmost `[tag]`, then (lazy `.*?`, with `.` matching newlines) the closest
following `[/tag]`; the stripped text between them is returned, and `""`
when there is no match.  The tag is substituted into the pattern literally
(the tags in use contain no regex metacharacters). -/
def extract_tagged_section (text : String) (tag : String) : String :=
  match findSub (region_open tag).data text.data with
  | none => ""
  | some i =>
    let after := text.data.drop (i + (region_open tag).data.length)
    match findSub (region_close tag).data after with
    | none => ""
    | some j => pyStrip (String.mk (after.take j))

/-- Spec-side characterization: `text` contains a region of the form
`[tag]...[/tag]` — an occurrence of the opening delimiter followed
(anywhere later) by an occurrence of the closing delimiter. -/
def HasTaggedRegion (text : String) (tag : String) : Prop :=
  ∃ i ≤ text.data.length,
    (region_open tag).data.isPrefixOf (text.data.drop i) = true ∧
    ∃ k ≤ text.data.length, i + (region_open tag).data.length ≤ k ∧
      (region_close tag).data.isPrefixOf (text.data.drop k) = true

/-- `DEFAULT_RELEVANCE_THRESHOLD` (message_filter.py:18). -/
def DEFAULT_RELEVANCE_THRESHOLD : ℚ := 0.3

/-- `BILL_RELATED_KEYWORDS` (message_filter.py:22-82). -/
def BILL_RELATED_KEYWORDS : List String :=
  ["法案", "法律", "制度", "規制", "政策", "法整備", "立法", "条文", "改正", "施行",
   "船荷証券", "B/L", "BL", "bill of lading", "電子化", "デジタル化", "ペーパーレス",
   "貿易", "輸出", "輸入", "通関", "税関", "荷主", "運送", "船会社", "フォワーダー",
   "物流", "国際取引",
   "実務", "業務", "手続き", "作業", "プロセス", "フロー", "運用", "システム",
   "セキュリティ", "リスク", "コスト", "効率",
   "課題", "問題", "懸念", "不安", "改善", "提案", "対策", "検討",
   "賛成", "反対", "必要", "不要", "有効", "無効"]

/-- The whole-string alternatives of the first irrelevant pattern
`^(はい|いいえ|うん|ええ|そう|なるほど|わかりました|了解|OK)$`
(message_filter.py:88).  `re.search` with both anchors on the stripped
content (which has no trailing newline) holds exactly when the content is
one of the alternatives. -/
def IRRELEVANT_EXACT : List String :=
  ["はい", "いいえ", "うん", "ええ", "そう", "なるほど", "わかりました", "了解", "OK"]

/-- The second irrelevant pattern `^(あ+|え+|お+|う+)$` (message_filter.py:89):
the content is a non-empty run of a single one of these four characters. -/
def irrelevant_repeat (content : String) : Bool :=
  (['あ', 'え', 'お', 'う']).any (fun c => !content.data.isEmpty && content.data.all (· == c))

/-- The disclaimer alternatives of the third irrelevant pattern
(message_filter.py:91). -/
def DISCLAIMER_HEADS : List String :=
  ["知らない", "分からない", "わからない", "聞いたことがない", "初めて聞"]

/-- The trailing character class `[。．.!！?？\s]` of the third irrelevant
pattern (message_filter.py:91). -/
def isDisclaimerTail (c : Char) : Bool :=
  c ∈ ['。', '．', '.', '!', '！', '?', '？'] || isPySpace c

/-- The third irrelevant pattern
`^(知らない|分からない|わからない|聞いたことがない|初めて聞)([。．.!！?？\s]*)$`
(message_filter.py:91): one of the disclaimer heads followed only by
punctuation/whitespace. -/
def irrelevant_disclaimer (content : String) : Bool :=
  DISCLAIMER_HEADS.any (fun p =>
    p.data.isPrefixOf content.data &&
    (content.data.drop p.data.length).all isDisclaimerTail)

/-- `IRRELEVANT_PATTERNS` (message_filter.py:86-92) as a single test: does any
of the three compiled patterns `search`-match the stripped content? -/
def matches_irrelevant_pattern (content : String) : Bool :=
  IRRELEVANT_EXACT.contains content || irrelevant_repeat content ||
    irrelevant_disclaimer content

/-- The kanji test `"一" <= c <= "鿿"` (message_filter.py:137). -/
def isCJK (c : Char) : Bool :=
  0x4e00 ≤ c.toNat && c.toNat ≤ 0x9fff

/-- The character class `[a-zA-Z0-9]` of the alphanumeric word-boundary
lookarounds (message_filter.py:148-149). -/
def isAsciiAlnum (c : Char) : Bool :=
  (('a' : Char) ≤ c && c ≤ 'z') || (('A' : Char) ≤ c && c ≤ 'Z') ||
  (('0' : Char) ≤ c && c ≤ '9')

/-- Does `pat` occur starting at index `i` of `cl`? -/
def matchAt (cl pat : List Char) (i : Nat) : Bool :=
  decide ((cl.drop i).take pat.length = pat)

/-- Plain substring test, the Python `keyword_lower in content_lower`. -/
def containsSub (cl pat : List Char) : Bool :=
  (List.range (cl.length + 1)).any (matchAt cl pat)

/-- Boundary-guarded substring test, the Python
`re.search(r"(?<![class])" + re.escape(kw) + r"(?![class])", content_lower)`
(message_filter.py:140-151): `pat` occurs at some position whose neighbors
on both sides (when they exist) are outside the guarded class `bad`. -/
def boundarySub (bad : Char → Bool) (cl pat : List Char) : Bool :=
  (List.range (cl.length + 1)).any (fun i =>
    matchAt cl pat i &&
    (decide (i = 0) || !bad (cl.getD (i - 1) ' ')) &&
    (decide (cl.length ≤ i + pat.length) || !bad (cl.getD (i + pat.length) ' ')))

/-- The per-keyword match dispatch of the keyword loop
(message_filter.py:128-156): keywords with `/` or a space use plain
substring match; short (≤ 3 chars) keywords containing kanji use
kanji-boundary match; other short keywords use alphanumeric-boundary match;
long keywords use plain substring match.  `cl` is `content_lower`'s
character list. -/
def keyword_matches (kw : String) (cl : List Char) : Bool :=
  let k := kw.data.map Char.toLower
  if k.contains '/' || k.contains ' ' then containsSub cl k
  else if decide (k.length ≤ 3) && k.any isCJK then boundarySub isCJK cl k
  else if decide (k.length ≤ 3) then boundarySub isAsciiAlnum cl k
  else containsSub cl k

/-- Python `content.lower()` on the character list (ASCII case folding; no
keyword and no pattern character is affected by anything beyond it). -/
def contentLower (content : String) : List Char :=
  content.data.map Char.toLower

/-- The `matched_keywords` list built by the keyword loop
(message_filter.py:127-156). -/
def matched_keywords (content : String) : List String :=
  BILL_RELATED_KEYWORDS.filter (fun kw => keyword_matches kw (contentLower content))

/-- `calculate_relevance_score` (message_filter.py:95-189).  Scores are `ℚ`
values standing for the Python floats; every constant and comparison the
claims touch is exact in this model. -/
def calculate_relevance_score (message_content : String) : ℚ :=
  let content := pyStrip message_content
  if content = "" then 0
  else if matches_irrelevant_pattern content then 0.1
  else if content.length < 5 then 0.2
  else
    let keyword_count := (matched_keywords content).length
    let base_score : ℚ :=
      if keyword_count = 0 then 0.1
      else if keyword_count = 1 then 0.4
      else if keyword_count = 2 then 0.6
      else min (0.8 + ((keyword_count : ℚ) - 3) * 0.05) 1
    let length_bonus : ℚ :=
      if 200 ≤ content.length then 0.2
      else if 100 ≤ content.length then 0.1
      else 0
    min (base_score + length_bonus) 1

/-- `filter_messages_by_relevance` (message_filter.py:192-254) on the rows of
the messages table: keep exactly the rows whose content scores strictly
above the threshold (`messages_df[relevance_scores > threshold]`). -/
def filter_messages_by_relevance (messages : List Utt) (threshold : ℚ) : List Utt :=
  messages.filter (fun m => decide (threshold < calculate_relevance_score m.content))

/-! ### Helper lemmas: strings, `joinNl`, and the chunker loop -/

theorem str_eq_empty_iff (s : String) : s = "" ↔ s.data = [] := by
  constructor <;> intro h
  · subst h; rfl
  · exact String.ext h

theorem serialize_line_ne_empty (u : Utt) : serialize_line u ≠ "" := by
  intro h
  rw [str_eq_empty_iff] at h
  simp [serialize_line, String.data_append] at h

theorem est_append_newline (a b : String) :
    _estimate_token_count (a ++ "\n" ++ b) ≤
      _estimate_token_count a + _estimate_token_count b + 1 := by
  simp only [_estimate_token_count, String.length_append]
  have : ("\n" : String).length = 1 := rfl
  rw [this]
  omega

theorem joinNl_cons (a : String) (t : List String) (h : t ≠ []) :
    joinNl (a :: t) = a ++ "\n" ++ joinNl t := by
  cases t with
  | nil => exact absurd rfl h
  | cons b t2 => rfl

theorem joinNl_append_singleton (acc : List String) (l : String) (h : acc ≠ []) :
    joinNl (acc ++ [l]) = joinNl acc ++ "\n" ++ l := by
  induction acc with
  | nil => exact absurd rfl h
  | cons a t ih =>
    cases t with
    | nil => rfl
    | cons b t2 =>
      have hne : (b :: t2 : List String) ≠ [] := by simp
      have hne2 : (b :: t2) ++ [l] ≠ ([] : List String) := by simp
      rw [List.cons_append, joinNl_cons a _ hne2, joinNl_cons a _ hne, ih hne]
      simp [String.append_assoc]

theorem joinNl_singleton (s : String) : joinNl [s] = s := rfl

theorem joinNl_ne_empty (acc : List String) (h : acc ≠ []) (hall : ∀ s ∈ acc, s ≠ "") :
    joinNl acc ≠ "" := by
  cases acc with
  | nil => exact absurd rfl h
  | cons a t =>
    cases t with
    | nil => exact hall a (by simp)
    | cons b t2 =>
      rw [joinNl_cons a _ (by simp)]
      intro hcontra
      rw [str_eq_empty_iff] at hcontra
      simp [String.data_append] at hcontra

theorem chunk_go_eq_map_joinNl (B : Nat) (rows : List Utt) :
    ∀ acc : List String, (∀ s ∈ acc, s ≠ "") →
      chunk_go B rows (joinNl acc) = (chunkL_go B rows acc).map joinNl := by
  induction rows with
  | nil =>
    intro acc hacc
    by_cases h : acc = []
    · subst h; simp [chunk_go, chunkL_go, joinNl]
    · have hne := joinNl_ne_empty acc h hacc
      simp [chunk_go, chunkL_go, h, hne]
  | cons u rest ih =>
    intro acc hacc
    by_cases hov : _estimate_token_count (serialize_line u) > B
    · have hrec := ih [] (by simp)
      by_cases h : acc = []
      · subst h
        simp only [chunk_go, chunkL_go, joinNl] at hrec ⊢
        simp [hov, hrec, joinNl_singleton]
      · have hne := joinNl_ne_empty acc h hacc
        simp only [chunk_go, chunkL_go, joinNl] at hrec ⊢
        simp [hov, h, hne, hrec, joinNl_singleton]
    · by_cases h : acc = []
      · subst h
        have hrec := ih [serialize_line u] (by simp [serialize_line_ne_empty])
        simp only [chunk_go, chunkL_go, joinNl] at hrec ⊢
        simp [hov, hrec, joinNl_singleton]
      · have hne := joinNl_ne_empty acc h hacc
        by_cases hfl : _estimate_token_count (joinNl acc) + _estimate_token_count (serialize_line u) > B
        · have hrec := ih [serialize_line u] (by simp [serialize_line_ne_empty])
          simp only [chunk_go, chunkL_go, joinNl] at hrec ⊢
          simp [hov, h, hne, hfl, hrec, joinNl_singleton]
        · have hall2 : ∀ s ∈ acc ++ [serialize_line u], s ≠ "" := by
            intro s hs
            rcases List.mem_append.mp hs with hs | hs
            · exact hacc s hs
            · simp at hs; subst hs; exact serialize_line_ne_empty u
          have hrec := ih (acc ++ [serialize_line u]) hall2
          rw [joinNl_append_singleton acc _ h] at hrec
          simp only [chunk_go, chunkL_go] at hrec ⊢
          simp [hov, h, hne, hfl, hrec]

theorem chunkL_go_join (B : Nat) (rows : List Utt) :
    ∀ acc : List String, (chunkL_go B rows acc).flatten = acc ++ rows.map serialize_line := by
  induction rows with
  | nil =>
    intro acc
    by_cases h : acc = [] <;> simp [chunkL_go, h]
  | cons u rest ih =>
    intro acc
    by_cases hov : _estimate_token_count (serialize_line u) > B
    · by_cases h : acc = [] <;> simp [chunkL_go, hov, h, ih []]
    · by_cases h : acc = []
      · simp [chunkL_go, hov, h, ih [serialize_line u]]
      · by_cases hfl : _estimate_token_count (joinNl acc) + _estimate_token_count (serialize_line u) > B
        · simp [chunkL_go, hov, h, hfl, ih [serialize_line u]]
        · simp [chunkL_go, hov, h, hfl, ih (acc ++ [serialize_line u])]

theorem chunk_go_est_bound (B : Nat) (rows : List Utt) :
    ∀ cur : String, (cur = "" ∨ _estimate_token_count cur ≤ B + 1) →
      ∀ c ∈ chunk_go B rows cur,
        _estimate_token_count c ≤ B + 1 ∨
          ∃ u ∈ rows, c = serialize_line u ∧ B < _estimate_token_count (serialize_line u) := by
  induction rows with
  | nil =>
    intro cur hcur c hc
    by_cases h : cur = ""
    · simp [chunk_go, h] at hc
    · simp [chunk_go, h] at hc
      subst hc
      rcases hcur with h0 | h0
      · exact absurd h0 h
      · exact Or.inl h0
  | cons u rest ih =>
    intro cur hcur c hc
    by_cases hov : _estimate_token_count (serialize_line u) > B
    · simp only [chunk_go, if_pos hov] at hc
      rcases List.mem_append.mp hc with hc | hc
      · rcases hcur with h0 | h0
        · rw [h0] at hc; simp at hc
        · have : c = cur := by
            by_cases h : cur = "" <;> simp [h] at hc
            · exact hc
          exact Or.inl (this ▸ h0)
      · rcases List.mem_cons.mp hc with hc | hc
        · exact Or.inr ⟨u, by simp, hc, hov⟩
        · rcases ih "" (Or.inl rfl) c hc with h0 | ⟨v, hv, hcv, hovv⟩
          · exact Or.inl h0
          · exact Or.inr ⟨v, by simp [hv], hcv, hovv⟩
    · by_cases h : cur = ""
      · simp only [chunk_go, if_neg hov, if_pos h] at hc
        rcases ih (serialize_line u) (Or.inr (by omega)) c hc with h0 | ⟨v, hv, hcv, hovv⟩
        · exact Or.inl h0
        · exact Or.inr ⟨v, by simp [hv], hcv, hovv⟩
      · by_cases hfl : _estimate_token_count cur + _estimate_token_count (serialize_line u) > B
        · simp only [chunk_go, if_neg hov, if_neg h, if_pos hfl] at hc
          rcases List.mem_cons.mp hc with hc | hc
          · subst hc
            rcases hcur with h0 | h0
            · exact absurd h0 h
            · exact Or.inl h0
          · rcases ih (serialize_line u) (Or.inr (by omega)) c hc with h0 | ⟨v, hv, hcv, hovv⟩
            · exact Or.inl h0
            · exact Or.inr ⟨v, by simp [hv], hcv, hovv⟩
        · simp only [chunk_go, if_neg hov, if_neg h, if_neg hfl] at hc
          have hbound : _estimate_token_count (cur ++ "\n" ++ serialize_line u) ≤ B + 1 := by
            have := est_append_newline cur (serialize_line u)
            omega
          rcases ih (cur ++ "\n" ++ serialize_line u) (Or.inr hbound) c hc with h0 | ⟨v, hv, hcv, hovv⟩
          · exact Or.inl h0
          · exact Or.inr ⟨v, by simp [hv], hcv, hovv⟩

theorem chunkL_go_cons (B : Nat) (u : Utt) (rest : List Utt) (acc : List String) :
    chunkL_go B (u :: rest) acc =
      if _estimate_token_count (serialize_line u) > B then
        (if acc = [] then [] else [acc]) ++ [serialize_line u] :: chunkL_go B rest []
      else if acc = [] then chunkL_go B rest [serialize_line u]
      else if _estimate_token_count (joinNl acc) + _estimate_token_count (serialize_line u) > B then
        acc :: chunkL_go B rest [serialize_line u]
      else chunkL_go B rest (acc ++ [serialize_line u]) := rfl

theorem chunkL_go_oversized_split (B : Nat) (u : Utt) (post : List Utt)
    (hov : B < _estimate_token_count (serialize_line u)) (pre : List Utt) :
    ∀ acc : List String,
      ∃ cs : List (List String),
        chunkL_go B (pre ++ u :: post) acc =
          cs ++ [serialize_line u] :: chunkL_go B post [] ∧
        cs.flatten = acc ++ pre.map serialize_line := by
  induction pre with
  | nil =>
    intro acc
    by_cases h : acc = []
    · subst h
      exact ⟨[], by rw [List.nil_append, chunkL_go_cons, if_pos hov, if_pos rfl, List.nil_append], by simp⟩
    · refine ⟨[acc], ?_, by simp⟩
      rw [List.nil_append, chunkL_go_cons, if_pos hov, if_neg h]
  | cons x pre2 ih =>
    intro acc
    by_cases hovx : _estimate_token_count (serialize_line x) > B
    · obtain ⟨cs, h1, h2⟩ := ih []
      refine ⟨(if acc = [] then [] else [acc]) ++ [serialize_line x] :: cs, ?_, ?_⟩
      · rw [List.cons_append, chunkL_go_cons, if_pos hovx, h1]
        simp
      · by_cases h : acc = [] <;> simp [h, h2]
    · by_cases h : acc = []
      · obtain ⟨cs, h1, h2⟩ := ih [serialize_line x]
        refine ⟨cs, ?_, ?_⟩
        · rw [List.cons_append, chunkL_go_cons, if_neg hovx, if_pos h, h1]
        · simp [h2, h]
      · by_cases hfl : _estimate_token_count (joinNl acc) + _estimate_token_count (serialize_line x) > B
        · obtain ⟨cs, h1, h2⟩ := ih [serialize_line x]
          refine ⟨acc :: cs, ?_, ?_⟩
          · rw [List.cons_append, chunkL_go_cons, if_neg hovx, if_neg h, if_pos hfl, h1]
            rfl
          · simp [h2]
        · obtain ⟨cs, h1, h2⟩ := ih (acc ++ [serialize_line x])
          refine ⟨cs, ?_, ?_⟩
          · rw [List.cons_append, chunkL_go_cons, if_neg hovx, if_neg h, if_neg hfl, h1]
          · simp [h2]

theorem chunkL_go_oversized_singleton (B : Nat) (rows : List Utt) :
    ∀ acc : List String, (∀ l ∈ acc, _estimate_token_count l ≤ B) →
      ∀ cl ∈ chunkL_go B rows acc, ∀ l ∈ cl, B < _estimate_token_count l → cl = [l] := by
  induction rows with
  | nil =>
    intro acc hacc cl hcl l hl hovl
    by_cases h : acc = [] <;> simp [chunkL_go, h] at hcl
    subst hcl
    exact absurd hovl (by have := hacc l hl; omega)
  | cons u rest ih =>
    intro acc hacc cl hcl l hl hovl
    by_cases hov : _estimate_token_count (serialize_line u) > B
    · simp only [chunkL_go, if_pos hov] at hcl
      rcases List.mem_append.mp hcl with hc | hc
      · have : cl = acc := by
          by_cases h : acc = [] <;> simp [h] at hc
          · exact hc
        subst this
        exact absurd hovl (by have := hacc l hl; omega)
      · rcases List.mem_cons.mp hc with hc | hc
        · subst hc
          simp at hl
          subst hl
          rfl
        · exact ih [] (by simp) cl hc l hl hovl
    · by_cases h : acc = []
      · simp only [chunkL_go, if_neg hov, if_pos h, h] at hcl
        exact ih [serialize_line u] (by simp; omega) cl hcl l hl hovl
      · by_cases hfl : _estimate_token_count (joinNl acc) + _estimate_token_count (serialize_line u) > B
        · simp only [chunkL_go, if_neg hov, if_neg h, if_pos hfl] at hcl
          rcases List.mem_cons.mp hcl with hc | hc
          · subst hc
            exact absurd hovl (by have := hacc l hl; omega)
          · exact ih [serialize_line u] (by simp; omega) cl hc l hl hovl
        · simp only [chunkL_go, if_neg hov, if_neg h, if_neg hfl] at hcl
          refine ih (acc ++ [serialize_line u]) ?_ cl hcl l hl hovl
          intro s hs
          rcases List.mem_append.mp hs with hs | hs
          · exact hacc s hs
          · simp at hs; subst hs; omega

/-! ### Claims C1, C2, C5: the token-bounded chunker -/

/-- C1 (counterexample): the claim "for every chunk other than a standalone
oversized-utterance chunk, the estimated token count of the chunk's full
serialized text is at most `max_tokens_per_chunk`" is false.  With budget 2,
the two rows `⟨"s", 1, "a", ""⟩` and `⟨"s", 1, "", ""⟩` serialize to lines of
estimate 1 each (so neither is oversized); the greedy check
`est(acc) + est(line) = 2 ≤ 2` admits the append, but the newline-joined
chunk `"[1] a: \n[1] : "` has 14 characters, hence estimate 3 > 2. -/
theorem C1_chunk_token_bound_counterexample :
    ¬ (∀ (rows : List Utt) (B : Nat), 0 < B →
        ∀ c ∈ chunk_messages_for_llm rows B,
          (¬ ∃ u ∈ rows, c = serialize_line u ∧ B < _estimate_token_count (serialize_line u)) →
          _estimate_token_count c ≤ B) := by
  intro h
  have h2 := h [⟨"s", 1, "a", ""⟩, ⟨"s", 1, "", ""⟩] 2 (by decide)
      "[1] a: \n[1] : " (by decide) (by decide)
  exact absurd h2 (by decide)

/-- C1 (amended): for every chunk other than a standalone chunk holding a
single oversized utterance, the estimated token count of the chunk's full
serialized text is at most `max_tokens_per_chunk + 1`.  (The greedy check
sums the estimates of the accumulator and of the line separately, which can
undercount the estimate of the newline-joined text by exactly the one token
the counterexample exhibits; it can never undercount by more.) -/
theorem C1_chunk_token_bound_amended (rows : List Utt) (B : Nat) (hB : 0 < B)
    (c : String) (hc : c ∈ chunk_messages_for_llm rows B)
    (hnotov : ¬ ∃ u ∈ rows, c = serialize_line u ∧ B < _estimate_token_count (serialize_line u)) :
    _estimate_token_count c ≤ B + 1 := by
  rcases chunk_go_est_bound B rows "" (Or.inl rfl) c hc with h | h
  · exact h
  · exact absurd h hnotov

/-- Witness for `C1_chunk_token_bound_amended` at the counterexample input:
the over-budget chunk does satisfy the amended bound 2 + 1. -/
theorem C1_chunk_token_bound_amended_witness :
    _estimate_token_count "[1] a: \n[1] : " ≤ 2 + 1 :=
  C1_chunk_token_bound_amended [⟨"s", 1, "a", ""⟩, ⟨"s", 1, "", ""⟩] 2 (by decide)
    "[1] a: \n[1] : " (by decide) (by decide)

/-- C2: chunking is complete — the string chunks are exactly the
newline-joins of the line-level chunks, the line-level chunks concatenate
(in order) to the serialized lines of the input stream (so every utterance
lands in exactly one chunk, none is duplicated or dropped, and chunk order
equals input order), and an empty stream yields zero chunks. -/
theorem C2_chunking_completeness (rows : List Utt) (B : Nat) (hB : 0 < B) :
    chunk_messages_for_llm rows B = (chunk_lines rows B).map joinNl ∧
    (chunk_lines rows B).flatten = rows.map serialize_line ∧
    chunk_messages_for_llm [] B = [] := by
  refine ⟨?_, ?_, rfl⟩
  · have h := chunk_go_eq_map_joinNl B rows [] (by simp)
    simpa [chunk_messages_for_llm, chunk_lines, joinNl] using h
  · simpa [chunk_lines] using chunkL_go_join B rows []

/-- Witness for `C2_chunking_completeness` on a concrete two-row stream with
budget 5. -/
theorem C2_chunking_completeness_witness :
    (0 : Nat) < 5 ∧
      (chunk_lines [⟨"s", 1, "a", "hello"⟩, ⟨"s", 2, "b", "there"⟩] 5).flatten =
        [⟨"s", 1, "a", "hello"⟩, ⟨"s", 2, "b", "there"⟩].map serialize_line :=
  ⟨by decide,
    (C2_chunking_completeness [⟨"s", 1, "a", "hello"⟩, ⟨"s", 2, "b", "there"⟩] 5 (by decide)).2.1⟩

/-- C5: an utterance whose serialized line estimates strictly over the budget
is emitted as a standalone chunk: the stream `pre ++ u :: post` chunks into
some chunks `cs` exactly covering `pre`, then the singleton chunk
`[serialize_line u]` (so the oversized utterance shares its chunk with no
other utterance), then exactly the chunks of `post` (so the accumulator
pending when the oversized line arrives is flushed first, and chunking
restarts from an empty accumulator).  Moreover any chunk anywhere that
contains an oversized line is that singleton chunk. -/
theorem C5_oversized_isolated (B : Nat) (pre : List Utt) (u : Utt) (post : List Utt)
    (hov : B < _estimate_token_count (serialize_line u)) :
    (∃ cs : List (List String),
      chunk_lines (pre ++ u :: post) B = cs ++ [serialize_line u] :: chunk_lines post B ∧
      cs.flatten = pre.map serialize_line ∧
      chunk_messages_for_llm (pre ++ u :: post) B =
        cs.map joinNl ++ serialize_line u :: chunk_messages_for_llm post B) ∧
    (∀ cl ∈ chunk_lines (pre ++ u :: post) B, ∀ l ∈ cl,
      B < _estimate_token_count l → cl = [l]) := by
  constructor
  · obtain ⟨cs, h1, h2⟩ := chunkL_go_oversized_split B u post hov pre []
    refine ⟨cs, by simpa [chunk_lines] using h1, by simpa using h2, ?_⟩
    have hmap := chunk_go_eq_map_joinNl B (pre ++ u :: post) [] (by simp)
    have hmap2 := chunk_go_eq_map_joinNl B post [] (by simp)
    rw [chunk_messages_for_llm, show ("" : String) = joinNl [] from rfl, hmap,
      show chunkL_go B (pre ++ u :: post) [] = chunk_lines (pre ++ u :: post) B from rfl,
      show chunk_lines (pre ++ u :: post) B = cs ++ [serialize_line u] :: chunk_lines post B by
        simpa [chunk_lines] using h1]
    rw [chunk_messages_for_llm, show ("" : String) = joinNl [] from rfl, hmap2]
    simp [chunk_lines, joinNl_singleton]
  · intro cl hcl l hl hovl
    exact chunkL_go_oversized_singleton B (pre ++ u :: post) [] (by simp) cl hcl l hl hovl

/-- Witness for `C5_oversized_isolated`: with budget 1 the middle row's line
estimates to 3 > 1 and is isolated between the chunks of the surrounding
rows. -/
theorem C5_oversized_isolated_witness :
    1 < _estimate_token_count (serialize_line ⟨"s", 2, "r", "aaaaaaaa"⟩) ∧
      (∃ cs : List (List String),
        chunk_lines [⟨"s", 1, "a", ""⟩, ⟨"s", 2, "r", "aaaaaaaa"⟩, ⟨"s", 3, "b", ""⟩] 1 =
          cs ++ [serialize_line ⟨"s", 2, "r", "aaaaaaaa"⟩] :: chunk_lines [⟨"s", 3, "b", ""⟩] 1 ∧
        cs.flatten = [⟨"s", 1, "a", ""⟩].map serialize_line ∧
        chunk_messages_for_llm [⟨"s", 1, "a", ""⟩, ⟨"s", 2, "r", "aaaaaaaa"⟩, ⟨"s", 3, "b", ""⟩] 1 =
          cs.map joinNl ++ serialize_line ⟨"s", 2, "r", "aaaaaaaa"⟩ ::
            chunk_messages_for_llm [⟨"s", 3, "b", ""⟩] 1) :=
  ⟨by decide,
    (C5_oversized_isolated 1 [⟨"s", 1, "a", ""⟩] ⟨"s", 2, "r", "aaaaaaaa"⟩ [⟨"s", 3, "b", ""⟩]
      (by decide)).1⟩

/-! ### Claim C3: the sequencer -/

theorem sorted_perm_eq_of_distinct_ts :
    ∀ (l1 l2 : List Utt), l1.Perm l2 →
      l1.Pairwise (fun a b => a.timestamp ≤ b.timestamp) →
      l2.Pairwise (fun a b => a.timestamp ≤ b.timestamp) →
      l2.Pairwise (fun a b => a.timestamp ≠ b.timestamp) →
      l1 = l2 := by
  intro l1
  induction l1 with
  | nil =>
    intro l2 hperm _ _ _
    exact (hperm.nil_eq).symm ▸ rfl
  | cons a t1 ih =>
    intro l2 hperm hs1 hs2 hd2
    cases l2 with
    | nil => exact absurd hperm.symm.nil_eq (by simp)
    | cons b t2 =>
      by_cases hab : a = b
      · subst hab
        have := ih t2 hperm.cons_inv (List.pairwise_cons.mp hs1).2
          (List.pairwise_cons.mp hs2).2 (List.pairwise_cons.mp hd2).2
        rw [this]
      · have hamem : a ∈ b :: t2 := hperm.mem_iff.mp (by simp)
        have hbmem : b ∈ a :: t1 := hperm.symm.mem_iff.mp (by simp)
        have hat2 : a ∈ t2 := by
          rcases List.mem_cons.mp hamem with h | h
          · exact absurd h hab
          · exact h
        have hbt1 : b ∈ t1 := by
          rcases List.mem_cons.mp hbmem with h | h
          · exact absurd h.symm hab
          · exact h
        have h1 : a.timestamp ≤ b.timestamp := (List.pairwise_cons.mp hs1).1 b hbt1
        have h2 : b.timestamp ≤ a.timestamp := (List.pairwise_cons.mp hs2).1 a hat2
        have hne : b.timestamp ≠ a.timestamp := (List.pairwise_cons.mp hd2).1 a hat2
        exact absurd (Nat.le_antisymm h2 h1) hne

/-- C3 (counterexample): the claim that the sequencer's sort is stable (equal
timestamps keep their input order) is not guaranteed by the code.
`build_global_transcript_df` is pandas `sort_values(TIMESTAMP_COL)` with the
default `kind='quicksort'`, whose contract only promises a non-decreasing
permutation — quicksort is documented as unstable.  On two rows with equal
timestamps the tie-swapped output is an admissible result of the call but
violates stability. -/
theorem C3_stable_sort_counterexample :
    ¬ (∀ (inp out : List Utt), build_global_transcript_df inp out →
        ∀ t : Nat, out.filter (fun u => u.timestamp == t) =
          inp.filter (fun u => u.timestamp == t)) := by
  intro h
  have h2 := h [⟨"s", 0, "interviewer", "x"⟩, ⟨"s", 0, "subject", "y"⟩]
      [⟨"s", 0, "subject", "y"⟩, ⟨"s", 0, "interviewer", "x"⟩]
      ⟨by decide, by decide⟩ 0
  exact absurd h2 (by decide)

/-- C3 (amended): the sequencer returns a permutation of its input whose
timestamps are non-decreasing — globally and within each per-session
stream — but equal-timestamp relative order is not guaranteed (the code
requests pandas' default unstable quicksort); the result is nevertheless
unique, hence repeated runs are deterministic, whenever all timestamps are
pairwise distinct. -/
theorem C3_sequencer_sorted_amended :
    (∀ inp out : List Utt, build_global_transcript_df inp out →
      out.Perm inp ∧ out.Pairwise (fun a b => a.timestamp ≤ b.timestamp)) ∧
    (∀ (inp : List Utt) (out : String → List Utt), group_messages_by_session inp out →
      ∀ sid : String, (out sid).Perm (inp.filter (fun u => u.session_id == sid)) ∧
        (out sid).Pairwise (fun a b => a.timestamp ≤ b.timestamp)) ∧
    (∀ inp out1 out2 : List Utt, inp.Pairwise (fun a b => a.timestamp ≠ b.timestamp) →
      build_global_transcript_df inp out1 → build_global_transcript_df inp out2 →
      out1 = out2) := by
  refine ⟨fun inp out h => h, fun inp out h sid => h sid, ?_⟩
  intro inp out1 out2 hd h1 h2
  have hsymm : ∀ x y : Utt, x.timestamp ≠ y.timestamp → y.timestamp ≠ x.timestamp :=
    fun x y h => h.symm
  have hd1 : out2.Pairwise (fun a b => a.timestamp ≠ b.timestamp) :=
    (h2.1.pairwise_iff fun h => hsymm _ _ h).mpr hd
  exact sorted_perm_eq_of_distinct_ts out1 out2 (h1.1.trans h2.1.symm) h1.2 h2.2 hd1

/-- Witness for `C3_sequencer_sorted_amended`: a concrete two-row input with
distinct timestamps, a concrete admissible output of the sort, and the
uniqueness conclusion at that input. -/
theorem C3_sequencer_sorted_amended_witness :
    ([⟨"s", 1, "b", "y"⟩, ⟨"s", 2, "a", "x"⟩] : List Utt).Perm
        [⟨"s", 2, "a", "x"⟩, ⟨"s", 1, "b", "y"⟩] ∧
      ([⟨"s", 1, "b", "y"⟩, ⟨"s", 2, "a", "x"⟩] : List Utt).Pairwise
        (fun a b => a.timestamp ≤ b.timestamp) :=
  C3_sequencer_sorted_amended.1 [⟨"s", 2, "a", "x"⟩, ⟨"s", 1, "b", "y"⟩]
    [⟨"s", 1, "b", "y"⟩, ⟨"s", 2, "a", "x"⟩] ⟨by decide, by decide⟩

/-! ### Claims C4, C8, C10: the hierarchical compressor -/

theorem compress_loop_iterate (chat : String → String → String) (budget : Nat) :
    ∀ (fuel : Nat) (current : List String),
      ∃ r ≤ fuel, compress_loop chat budget fuel current = (compress_round chat)^[r] current := by
  intro fuel
  induction fuel with
  | zero => exact fun current => ⟨0, le_rfl, rfl⟩
  | succ n ih =>
    intro current
    by_cases h1 : current.length = 1
    · exact ⟨0, Nat.zero_le _, by simp [compress_loop, h1]⟩
    · by_cases h2 : _estimate_token_count (String.intercalate "\n\n" (compress_round chat current))
          ≤ budget
      · exact ⟨1, by omega, by simp [compress_loop, h1, h2]⟩
      · obtain ⟨r, hr, heq⟩ := ih (compress_round chat current)
        refine ⟨r + 1, by omega, ?_⟩
        rw [Function.iterate_succ_apply]
        simp [compress_loop, h1, h2, heq]

theorem filterMap_nonempty_batches (f : List String → String) :
    ∀ l : List (List String), (∀ b ∈ l, b ≠ []) →
      l.filterMap (fun batch => if batch.isEmpty then none
        else some (f batch)) = l.map f := by
  intro l
  induction l with
  | nil => intro _; rfl
  | cons b t ih =>
    intro h
    have hb : b.isEmpty = false := by
      have := h b (by simp)
      cases b with
      | nil => exact absurd rfl this
      | cons x xs => rfl
    have hbne : b ≠ [] := h b (by simp)
    have ih2 := ih (fun x hx => h x (by simp [hx]))
    simp [List.filterMap_cons, hb, hbne]
    simpa using ih2

theorem compress_round_length (chat : String → String → String) (current : List String) :
    (compress_round chat current).length =
      (current.length + DEFAULT_COMPRESSION_BATCH_SIZE - 1) / DEFAULT_COMPRESSION_BATCH_SIZE := by
  unfold compress_round
  rw [filterMap_nonempty_batches]
  · simp
  · intro b hb
    simp only [List.mem_map, List.mem_range] at hb
    obtain ⟨i, hi, rfl⟩ := hb
    have h10 : DEFAULT_COMPRESSION_BATCH_SIZE * i < current.length := by
      unfold DEFAULT_COMPRESSION_BATCH_SIZE at hi ⊢
      omega
    intro hnil
    rcases List.take_eq_nil_iff.mp hnil with h | h
    · exact absurd h (by unfold DEFAULT_COMPRESSION_BATCH_SIZE; omega)
    · exact absurd (List.drop_eq_nil_iff.mp h) (by omega)

theorem compress_round_ne_nil (chat : String → String → String) (current : List String)
    (h : current ≠ []) : compress_round chat current ≠ [] := by
  intro hnil
  have hlen := compress_round_length chat current
  rw [hnil] at hlen
  have hpos : 0 < current.length := List.length_pos.mpr h
  unfold DEFAULT_COMPRESSION_BATCH_SIZE at hlen
  simp at hlen
  omega

theorem compress_loop_ne_nil (chat : String → String → String) (budget : Nat) :
    ∀ (fuel : Nat) (current : List String), current ≠ [] →
      compress_loop chat budget fuel current ≠ [] := by
  intro fuel
  induction fuel with
  | zero => exact fun current h => h
  | succ n ih =>
    intro current h
    by_cases h1 : current.length = 1
    · simpa [compress_loop, h1] using h
    · by_cases h2 : _estimate_token_count (String.intercalate "\n\n" (compress_round chat current))
          ≤ budget
      · simpa [compress_loop, h1, h2] using compress_round_ne_nil chat current h
      · simpa [compress_loop, h1, h2] using ih (compress_round chat current)
          (compress_round_ne_nil chat current h)

/-- C4: when the estimated token count of the `"\n\n"`-joined input summaries
is at most the global-prompt budget, `compress_chunk_summaries` returns its
input unchanged — for every possible behavior `chat` of the external
text-generation collaborator, so no summarize-batch call can influence (or
be needed for) the result — and the empty input is likewise returned
unchanged rather than being an error. -/
theorem C4_compress_below_budget (chat : String → String → String)
    (summaries : List String) (budget : Nat) :
    (_estimate_token_count (String.intercalate "\n\n" summaries) ≤ budget →
      compress_chunk_summaries chat summaries budget = summaries) ∧
    compress_chunk_summaries chat [] budget = [] := by
  constructor
  · intro h
    unfold compress_chunk_summaries
    by_cases he : summaries = [] <;> simp [he, h]
  · rfl

/-- Witness for `C4_compress_below_budget`: two short summaries joined
estimate to 3 ≤ 100 tokens, and compression leaves them unchanged under an
arbitrary concrete collaborator. -/
theorem C4_compress_below_budget_witness :
    _estimate_token_count (String.intercalate "\n\n" ["alpha", "beta"]) ≤ 100 ∧
      compress_chunk_summaries (fun _ _ => "merged") ["alpha", "beta"] 100 = ["alpha", "beta"] :=
  ⟨by decide, (C4_compress_below_budget (fun _ _ => "merged") ["alpha", "beta"] 100).1 (by decide)⟩

/-- C8: `compress_chunk_summaries` always terminates after at most
`DEFAULT_COMPRESSION_MAX_ROUNDS` rounds of batch summarization — its result
is the `r`-fold iterate of `compress_round` (one round = partition the
current level into consecutive batches of `DEFAULT_COMPRESSION_BATCH_SIZE`
and merge each batch with one collaborator call) for some
`r ≤ DEFAULT_COMPRESSION_MAX_ROUNDS` — and that last level is returned
unconditionally, with no requirement that its estimated token count meet
the budget. -/
theorem C8_compress_round_bound (chat : String → String → String)
    (summaries : List String) (budget : Nat) :
    ∃ r ≤ DEFAULT_COMPRESSION_MAX_ROUNDS,
      compress_chunk_summaries chat summaries budget = (compress_round chat)^[r] summaries := by
  unfold compress_chunk_summaries
  by_cases he : summaries = []
  · exact ⟨0, Nat.zero_le _, by simp [he]⟩
  · by_cases h : _estimate_token_count (String.intercalate "\n\n" summaries) ≤ budget
    · exact ⟨0, Nat.zero_le _, by simp [he, h]⟩
    · obtain ⟨r, hr, heq⟩ := compress_loop_iterate chat budget DEFAULT_COMPRESSION_MAX_ROUNDS summaries
      exact ⟨r, hr, by simp [he, h, heq]⟩

/-- C10: a non-empty input always yields a non-empty output: each round maps
a level of length `n` to one of length `⌈n / batch_size⌉` (which is ≥ 1 for
`n ≥ 1`), and a one-element level stops the loop and is returned as is, so
the downstream synthesis prompt is never built from zero summaries when at
least one chunk analysis existed. -/
theorem C10_compress_nonempty (chat : String → String → String)
    (summaries : List String) (budget : Nat) (h : summaries ≠ []) :
    compress_chunk_summaries chat summaries budget ≠ [] ∧
    ∀ current : List String, (compress_round chat current).length =
      (current.length + DEFAULT_COMPRESSION_BATCH_SIZE - 1) / DEFAULT_COMPRESSION_BATCH_SIZE := by
  refine ⟨?_, compress_round_length chat⟩
  unfold compress_chunk_summaries
  by_cases hb : _estimate_token_count (String.intercalate "\n\n" summaries) ≤ budget
  · simpa [h, hb] using h
  · simpa [h, hb] using compress_loop_ne_nil chat budget DEFAULT_COMPRESSION_MAX_ROUNDS summaries h

/-- Witness for `C10_compress_nonempty`: a concrete over-budget two-summary
input still compresses to a non-empty list. -/
theorem C10_compress_nonempty_witness :
    compress_chunk_summaries (fun _ _ => "s") ["aaaaaaaaaa", "bbbbbbbbbb"] 1 ≠ [] :=
  (C10_compress_nonempty (fun _ _ => "s") ["aaaaaaaaaa", "bbbbbbbbbb"] 1 (by simp)).1

/-! ### Claim C9: tagged-section extraction -/

theorem bool_eq_false_of_not_true {b : Bool} (h : ¬ b = true) : b = false := by
  cases b
  · rfl
  · exact absurd rfl h

theorem isPrefixOf_append_self : ∀ l t : List Char, l.isPrefixOf (l ++ t) = true := by
  intro l t
  induction l with
  | nil => simp [List.isPrefixOf]
  | cons c cs ih =>
    simp only [List.cons_append, List.isPrefixOf, beq_self_eq_true, Bool.true_and]
    exact ih

theorem isPrefixOf_exists_suffix :
    ∀ l s : List Char, l.isPrefixOf s = true → ∃ t, s = l ++ t := by
  intro l
  induction l with
  | nil => exact fun s _ => ⟨s, rfl⟩
  | cons c cs ih =>
    intro s h
    cases s with
    | nil => simp [List.isPrefixOf] at h
    | cons d ds =>
      simp only [List.isPrefixOf, Bool.and_eq_true, beq_iff_eq] at h
      obtain ⟨t, ht⟩ := ih ds h.2
      exact ⟨t, by simp [h.1, ht]⟩

theorem findSub_eq_some (pat : List Char) :
    ∀ (s : List Char) (i : Nat), findSub pat s = some i →
      pat.isPrefixOf (s.drop i) = true ∧ ∀ j < i, pat.isPrefixOf (s.drop j) = false := by
  intro s
  induction s with
  | nil =>
    intro i h
    unfold findSub at h
    split at h
    · cases h
      exact ⟨by assumption, fun j hj => absurd hj (by omega)⟩
    · cases h
  | cons c rest ih =>
    intro i h
    unfold findSub at h
    split at h
    · cases h
      exact ⟨by assumption, fun j hj => absurd hj (by omega)⟩
    · rename_i hnp
      cases hf : findSub pat rest with
      | none => rw [hf] at h; cases h
      | some k =>
        rw [hf] at h
        simp only [Option.map_some'] at h
        cases h
        obtain ⟨h1, h2⟩ := ih k hf
        refine ⟨h1, ?_⟩
        intro j hj
        cases j with
        | zero => exact bool_eq_false_of_not_true hnp
        | succ j2 => exact h2 j2 (by omega)

theorem findSub_eq_none (pat : List Char) :
    ∀ s : List Char, findSub pat s = none → ∀ j, pat.isPrefixOf (s.drop j) = false := by
  intro s
  induction s with
  | nil =>
    intro h j
    unfold findSub at h
    split at h
    · cases h
    · rename_i hnp
      rw [List.drop_nil]
      exact bool_eq_false_of_not_true hnp
  | cons c rest ih =>
    intro h j
    unfold findSub at h
    split at h
    · cases h
    · rename_i hnp
      cases hf : findSub pat rest with
      | none =>
        cases j with
        | zero => exact bool_eq_false_of_not_true hnp
        | succ j2 => exact ih hf j2
      | some k => rw [hf] at h; cases h

theorem findSub_eq_some_of (pat : List Char) :
    ∀ (s : List Char) (i : Nat), pat.isPrefixOf (s.drop i) = true →
      (∀ j < i, pat.isPrefixOf (s.drop j) = false) → findSub pat s = some i := by
  intro s
  induction s with
  | nil =>
    intro i h1 h2
    rw [List.drop_nil] at h1
    cases i with
    | zero => unfold findSub; rw [if_pos h1]
    | succ i2 =>
      have h0 := h2 0 (by omega)
      rw [List.drop_nil] at h0
      rw [h0] at h1
      cases h1
  | cons c rest ih =>
    intro i h1 h2
    cases i with
    | zero =>
      rw [List.drop_zero] at h1
      unfold findSub
      rw [if_pos h1]
    | succ k =>
      have h0 : pat.isPrefixOf (c :: rest) = false := by
        have := h2 0 (by omega)
        rwa [List.drop_zero] at this
      unfold findSub
      rw [if_neg (by rw [h0]; exact Bool.false_ne_true)]
      have hrec := ih k (by simpa only [List.drop_succ_cons] using h1)
        (fun j hj => by
          have := h2 (j + 1) (by omega)
          rwa [List.drop_succ_cons] at this)
      rw [hrec]
      rfl

theorem region_open_data (tag : String) :
    (region_open tag).data = '[' :: (tag.data ++ [']']) := by
  simp [region_open, String.data_append]

theorem region_close_data (tag : String) :
    (region_close tag).data = '[' :: '/' :: (tag.data ++ [']']) := by
  simp [region_close, String.data_append]

theorem prefix_cons_pos_le_length (c : Char) (cs l : List Char) (i : Nat)
    (h : (c :: cs).isPrefixOf (l.drop i) = true) : i ≤ l.length := by
  by_contra hgt
  rw [List.drop_eq_nil_of_le (by omega)] at h
  have hfalse : (c :: cs).isPrefixOf ([] : List Char) = false := rfl
  rw [hfalse] at h
  exact Bool.false_ne_true h

theorem extract_tagged_eq_of_found (text tag : String) (i j : Nat)
    (hfo : findSub (region_open tag).data text.data = some i)
    (hfc : findSub (region_close tag).data
      (text.data.drop (i + (region_open tag).data.length)) = some j) :
    extract_tagged_section text tag =
      pyStrip (String.mk ((text.data.drop (i + (region_open tag).data.length)).take j)) := by
  unfold extract_tagged_section
  rw [hfo]
  simp only []
  rw [hfc]

theorem extract_tagged_eq_of_no_close (text tag : String) (i : Nat)
    (hfo : findSub (region_open tag).data text.data = some i)
    (hfc : findSub (region_close tag).data
      (text.data.drop (i + (region_open tag).data.length)) = none) :
    extract_tagged_section text tag = "" := by
  unfold extract_tagged_section
  rw [hfo]
  simp only []
  rw [hfc]

theorem extract_tagged_eq_of_no_open (text tag : String)
    (hfo : findSub (region_open tag).data text.data = none) :
    extract_tagged_section text tag = "" := by
  unfold extract_tagged_section
  rw [hfo]

/-- C9: tagged-section extraction returns the trimmed inner text of the first
`[tag]...[/tag]` region — the region starting at the leftmost occurrence of
`[tag]`, closed by the closest following `[/tag]` — and returns the empty
string rather than raising when no such region exists; on the response
`"[overall_summary]A[/overall_summary][suggestions]B[/suggestions]"` the
three report sections come out as `"A"`, `""`, `"B"`. -/
theorem C9_extract_tagged_section :
    (extract_tagged_section
        "[overall_summary]A[/overall_summary][suggestions]B[/suggestions]"
        "overall_summary" = "A" ∧
      extract_tagged_section
        "[overall_summary]A[/overall_summary][suggestions]B[/suggestions]"
        "overlooked_points" = "" ∧
      extract_tagged_section
        "[overall_summary]A[/overall_summary][suggestions]B[/suggestions]"
        "suggestions" = "B") ∧
    (∀ text tag : String, ¬ HasTaggedRegion text tag →
      extract_tagged_section text tag = "") ∧
    (∀ (p m s : List Char) (tag : String),
      (∀ k < p.length, (region_open tag).data.isPrefixOf
          ((p ++ (region_open tag).data ++ m ++ (region_close tag).data ++ s).drop k) = false) →
      (∀ k < m.length, (region_close tag).data.isPrefixOf
          ((m ++ (region_close tag).data ++ s).drop k) = false) →
      extract_tagged_section
          (String.mk (p ++ (region_open tag).data ++ m ++ (region_close tag).data ++ s)) tag =
        pyStrip (String.mk m)) := by
  refine ⟨⟨by decide, by decide, by decide⟩, ?_, ?_⟩
  · intro text tag hno
    cases hfo : findSub (region_open tag).data text.data with
    | none => exact extract_tagged_eq_of_no_open text tag hfo
    | some i =>
      cases hfc : findSub (region_close tag).data
          (text.data.drop (i + (region_open tag).data.length)) with
      | none => exact extract_tagged_eq_of_no_close text tag i hfo hfc
      | some j =>
        exfalso
        apply hno
        obtain ⟨ho1, _⟩ := findSub_eq_some _ _ _ hfo
        obtain ⟨hc1, _⟩ := findSub_eq_some _ _ _ hfc
        rw [List.drop_drop] at hc1
        have hi : i ≤ text.data.length := by
          rw [region_open_data] at ho1
          exact prefix_cons_pos_le_length _ _ _ _ ho1
        have hk : i + (region_open tag).data.length + j ≤ text.data.length := by
          rw [region_close_data] at hc1
          exact prefix_cons_pos_le_length _ _ _ _ hc1
        exact ⟨i, hi, ho1, i + (region_open tag).data.length + j, hk, by omega, hc1⟩
  · intro p m s tag hp hm
    have hfo : findSub (region_open tag).data
        (p ++ (region_open tag).data ++ m ++ (region_close tag).data ++ s) = some p.length := by
      apply findSub_eq_some_of
      · have : (p ++ (region_open tag).data ++ m ++ (region_close tag).data ++ s).drop p.length =
            (region_open tag).data ++ (m ++ ((region_close tag).data ++ s)) := by
          simp only [List.append_assoc]
          exact List.drop_left p _
        rw [this]
        exact isPrefixOf_append_self _ _
      · exact hp
    have hafter : (p ++ (region_open tag).data ++ m ++ (region_close tag).data ++ s).drop
        (p.length + (region_open tag).data.length) =
        m ++ (region_close tag).data ++ s := by
      have h1 : p.length + (region_open tag).data.length = (p ++ (region_open tag).data).length := by
        simp
      rw [h1]
      have h2 : p ++ (region_open tag).data ++ m ++ (region_close tag).data ++ s =
          (p ++ (region_open tag).data) ++ (m ++ (region_close tag).data ++ s) := by
        simp [List.append_assoc]
      rw [h2]
      exact List.drop_left _ _
    have hfc : findSub (region_close tag).data (m ++ (region_close tag).data ++ s) =
        some m.length := by
      apply findSub_eq_some_of
      · have : (m ++ (region_close tag).data ++ s).drop m.length =
            (region_close tag).data ++ s := by
          simp only [List.append_assoc]
          exact List.drop_left m _
        rw [this]
        exact isPrefixOf_append_self _ _
      · exact hm
    have := extract_tagged_eq_of_found
      (String.mk (p ++ (region_open tag).data ++ m ++ (region_close tag).data ++ s)) tag
      p.length m.length (by exact hfo) (by rw [show (String.mk (p ++ (region_open tag).data ++ m ++ (region_close tag).data ++ s)).data = p ++ (region_open tag).data ++ m ++ (region_close tag).data ++ s from rfl, hafter]; exact hfc)
    rw [this]
    congr 1
    rw [show (String.mk (p ++ (region_open tag).data ++ m ++ (region_close tag).data ++ s)).data = p ++ (region_open tag).data ++ m ++ (region_close tag).data ++ s from rfl, hafter]
    congr 1
    have : m ++ (region_close tag).data ++ s = m ++ ((region_close tag).data ++ s) := by
      simp [List.append_assoc]
    rw [this]
    exact List.take_left m _

/-- Witness for `C9_extract_tagged_section`: a response with no tagged region
extracts to `""`, and a concrete decomposed response extracts its trimmed
inner text. -/
theorem C9_extract_tagged_section_witness :
    extract_tagged_section "plain response" "overall_summary" = "" ∧
      extract_tagged_section
          (String.mk (([] : List Char) ++ (region_open "t").data ++ [' ', 'A'] ++
            (region_close "t").data ++ [])) "t" = pyStrip (String.mk [' ', 'A']) :=
  ⟨C9_extract_tagged_section.2.1 "plain response" "overall_summary"
      (by unfold HasTaggedRegion; decide),
    C9_extract_tagged_section.2.2 [] [' ', 'A'] [] "t" (by decide) (by decide)⟩

/-! ### Claim C7: the relevance filter -/

/-- C7: the filter retains exactly the rows whose content scores strictly
above the threshold, and it is antitone in the threshold: raising the
threshold from `t1` to `t2 ≥ t1` keeps only a sub-sequence of the rows kept
at `t1`, so the retained count never increases. -/
theorem C7_filter_contract (messages : List Utt) (t1 t2 : ℚ) (h12 : t1 ≤ t2) :
    (∀ m : Utt, m ∈ filter_messages_by_relevance messages t1 ↔
        m ∈ messages ∧ t1 < calculate_relevance_score m.content) ∧
    (filter_messages_by_relevance messages t2).Sublist
      (filter_messages_by_relevance messages t1) ∧
    (filter_messages_by_relevance messages t2).length ≤
      (filter_messages_by_relevance messages t1).length := by
  have hsub : (filter_messages_by_relevance messages t2).Sublist
      (filter_messages_by_relevance messages t1) := by
    refine List.monotone_filter_right _ ?_
    intro a ha
    simp only [decide_eq_true_eq] at ha ⊢
    exact lt_of_le_of_lt h12 ha
  refine ⟨?_, hsub, hsub.length_le⟩
  intro m
  simp [filter_messages_by_relevance, List.mem_filter]

/-- Witness for `C7_filter_contract` on a concrete two-row table and the
thresholds 0.05 ≤ 0.3. -/
theorem C7_filter_contract_witness :
    (filter_messages_by_relevance
        [⟨"s", 0, "r", "はい"⟩, ⟨"s", 1, "r", "この法案を検討します"⟩] (0.3 : ℚ)).length ≤
      (filter_messages_by_relevance
        [⟨"s", 0, "r", "はい"⟩, ⟨"s", 1, "r", "この法案を検討します"⟩] (0.05 : ℚ)).length :=
  (C7_filter_contract [⟨"s", 0, "r", "はい"⟩, ⟨"s", 1, "r", "この法案を検討します"⟩]
    (0.05 : ℚ) (0.3 : ℚ) (by norm_num)).2.2

/-! ### Claim C6: the relevance scorer -/

theorem matchAt_subset (cl pat : List Char) (i : Nat) (h : matchAt cl pat i = true) :
    ∀ ch ∈ pat, ch ∈ cl := by
  unfold matchAt at h
  have heq := of_decide_eq_true h
  intro ch hch
  rw [← heq] at hch
  exact List.drop_subset i cl (List.take_subset _ _ hch)

theorem containsSub_subset (cl pat : List Char) (h : containsSub cl pat = true) :
    ∀ ch ∈ pat, ch ∈ cl := by
  unfold containsSub at h
  obtain ⟨i, _, hi⟩ := List.any_eq_true.mp h
  exact matchAt_subset cl pat i hi

theorem boundarySub_subset (bad : Char → Bool) (cl pat : List Char)
    (h : boundarySub bad cl pat = true) : ∀ ch ∈ pat, ch ∈ cl := by
  unfold boundarySub at h
  obtain ⟨i, _, hi⟩ := List.any_eq_true.mp h
  rw [Bool.and_eq_true, Bool.and_eq_true] at hi
  exact matchAt_subset cl pat i hi.1.1

theorem keyword_chars_mem (kw : String) (cl : List Char)
    (h : keyword_matches kw cl = true) : ∀ ch ∈ kw.data.map Char.toLower, ch ∈ cl := by
  unfold keyword_matches at h
  simp only [] at h
  split at h
  · exact containsSub_subset cl _ h
  · split at h
    · exact boundarySub_subset isCJK cl _ h
    · split at h
      · exact boundarySub_subset isAsciiAlnum cl _ h
      · exact containsSub_subset cl _ h

theorem toLower_eq_self_of_not_latin_upper (c : Char)
    (h : ¬ (65 ≤ c.toNat ∧ c.toNat ≤ 90)) : Char.toLower c = c := by
  unfold Char.toLower
  rw [if_neg h]

theorem isPySpace_toLower (c : Char) (h : isPySpace c = true) : Char.toLower c = c := by
  unfold isPySpace at h
  simp only [Bool.or_eq_true, Bool.and_eq_true, decide_eq_true_eq, beq_iff_eq] at h
  apply toLower_eq_self_of_not_latin_upper
  rcases h with ((((((h | h) | h) | h) | h) | h) | h) | h <;> omega

theorem isDisclaimerTail_toLower (c : Char) (h : isDisclaimerTail c = true) :
    Char.toLower c = c := by
  unfold isDisclaimerTail at h
  rw [Bool.or_eq_true] at h
  rcases h with h | h
  · have hc : c ∈ (['。', '．', '.', '!', '！', '?', '？'] : List Char) := of_decide_eq_true h
    have hall : ∀ x ∈ (['。', '．', '.', '!', '！', '?', '？'] : List Char),
        Char.toLower x = x := by decide
    exact hall c hc
  · exact isPySpace_toLower c h

theorem matched_keywords_nil_of_repeat (content : String)
    (h : irrelevant_repeat content = true) : matched_keywords content = [] := by
  unfold irrelevant_repeat at h
  obtain ⟨c, hcmem, hc⟩ := List.any_eq_true.mp h
  rw [Bool.and_eq_true] at hc
  obtain ⟨_, hall⟩ := hc
  rw [matched_keywords, List.filter_eq_nil_iff]
  intro kw hkw hmatch
  have hsub := keyword_chars_mem kw _ hmatch
  have hlow : Char.toLower c = c := by
    have hfix : ∀ x ∈ (['あ', 'え', 'お', 'う'] : List Char), Char.toLower x = x := by decide
    exact hfix c hcmem
  have hallc : ∀ ch ∈ kw.data.map Char.toLower, ch = c := by
    intro ch hch
    have hmem := hsub ch hch
    unfold contentLower at hmem
    obtain ⟨orig, horig, rfl⟩ := List.mem_map.mp hmem
    have horigc : orig = c := by
      have := List.all_eq_true.mp hall orig horig
      exact eq_of_beq this
    rw [horigc, hlow]
  have hfact : ∀ kw2 ∈ BILL_RELATED_KEYWORDS, ∀ c2 ∈ (['あ', 'え', 'お', 'う'] : List Char),
      ¬ ∀ ch ∈ kw2.data.map Char.toLower, ch = c2 := by decide
  exact hfact kw hkw c hcmem hallc

theorem matched_keywords_nil_of_disclaimer (content : String)
    (h : irrelevant_disclaimer content = true) : matched_keywords content = [] := by
  unfold irrelevant_disclaimer at h
  obtain ⟨p, hpmem, hp⟩ := List.any_eq_true.mp h
  rw [Bool.and_eq_true] at hp
  obtain ⟨hpre, htail⟩ := hp
  obtain ⟨t, ht⟩ := isPrefixOf_exists_suffix _ _ hpre
  have hclass : ∀ ch ∈ content.data, ch ∈ p.data ∨ isDisclaimerTail ch = true := by
    intro ch hch
    rw [ht] at hch
    rcases List.mem_append.mp hch with h1 | h1
    · exact Or.inl h1
    · right
      have hdrop : content.data.drop p.data.length = t := by
        rw [ht]; exact List.drop_left _ _
      rw [hdrop] at htail
      exact List.all_eq_true.mp htail ch h1
  rw [matched_keywords, List.filter_eq_nil_iff]
  intro kw hkw hmatch
  have hsub := keyword_chars_mem kw _ hmatch
  have hallow : ∀ ch ∈ kw.data.map Char.toLower,
      (DISCLAIMER_HEADS.any (fun q => q.data.any (fun a => Char.toLower a == ch)) ||
        isDisclaimerTail ch) = true := by
    intro ch hch
    have hmem := hsub ch hch
    unfold contentLower at hmem
    obtain ⟨orig, horig, rfl⟩ := List.mem_map.mp hmem
    rw [Bool.or_eq_true]
    rcases hclass orig horig with h1 | h1
    · left
      rw [List.any_eq_true]
      refine ⟨p, hpmem, ?_⟩
      rw [List.any_eq_true]
      exact ⟨orig, h1, by simp⟩
    · right
      rw [isDisclaimerTail_toLower orig h1]
      exact h1
  have hfact : ∀ kw2 ∈ BILL_RELATED_KEYWORDS, ¬ ∀ ch ∈ kw2.data.map Char.toLower,
      (DISCLAIMER_HEADS.any (fun q => q.data.any (fun a => Char.toLower a == ch)) ||
        isDisclaimerTail ch) = true := by decide
  exact hfact kw hkw hallow

theorem irrelevant_exact_short (content : String)
    (h : IRRELEVANT_EXACT.contains content = true) : content.length < 8 := by
  have hmem : content ∈ IRRELEVANT_EXACT := by simpa using h
  have hall : ∀ t ∈ IRRELEVANT_EXACT, t.length < 8 := by decide
  exact hall content hmem

theorem calculate_relevance_score_bounds (s : String) :
    0 ≤ calculate_relevance_score s ∧ calculate_relevance_score s ≤ 1 := by
  simp only [calculate_relevance_score]
  split_ifs
  case _ => norm_num
  case _ => norm_num
  case _ => norm_num
  all_goals refine ⟨le_min ?_ (by norm_num), min_le_right _ _⟩
  all_goals try norm_num
  all_goals (
    have hk3 : 3 ≤ (matched_keywords (pyStrip s)).length := by omega
    have hc : (3 : ℚ) ≤ ((matched_keywords (pyStrip s)).length : ℚ) := by
      exact_mod_cast hk3
    have hb : (0.8 : ℚ) ≤
        min (0.8 + (((matched_keywords (pyStrip s)).length : ℚ) - 3) * 0.05) 1 :=
      le_min (by nlinarith) (by norm_num)
    linarith)

/-- C6: boundary values of the relevance scorer.  The empty string and every
whitespace-only string score 0.0; a bare acknowledgment — the entire trimmed
content matching an irrelevant pattern, such as `"はい"` — scores 0.1; a
4-character trimmed string matching no irrelevant pattern scores 0.2; any
string in which the keyword matcher finds 3 or more distinct domain keywords
and whose trimmed length is at least 200 characters scores at least 0.95 and
at most 1.0; and every score lies in [0.0, 1.0]. -/
theorem C6_relevance_score_boundaries :
    (∀ s : String, pyStrip s = "" → calculate_relevance_score s = 0) ∧
    (calculate_relevance_score "はい" = 0.1 ∧
      ∀ s : String, pyStrip s ≠ "" → matches_irrelevant_pattern (pyStrip s) = true →
        calculate_relevance_score s = 0.1) ∧
    (∀ s : String, (pyStrip s).length = 4 →
      matches_irrelevant_pattern (pyStrip s) = false → calculate_relevance_score s = 0.2) ∧
    (∀ s : String, 3 ≤ (matched_keywords (pyStrip s)).length → 200 ≤ (pyStrip s).length →
      0.95 ≤ calculate_relevance_score s ∧ calculate_relevance_score s ≤ 1) ∧
    (∀ s : String, 0 ≤ calculate_relevance_score s ∧ calculate_relevance_score s ≤ 1) := by
  have hack : ∀ s : String, pyStrip s ≠ "" → matches_irrelevant_pattern (pyStrip s) = true →
      calculate_relevance_score s = 0.1 := by
    intro s hne hirr
    simp [calculate_relevance_score, hne, hirr]
  refine ⟨?_, ⟨hack "はい" (by decide) (by decide), hack⟩, ?_, ?_, calculate_relevance_score_bounds⟩
  · intro s h
    simp [calculate_relevance_score, h]
  · intro s hlen hirr
    have hne : pyStrip s ≠ "" := by
      intro h
      rw [h] at hlen
      simp at hlen
    have h5 : (pyStrip s).length < 5 := by omega
    simp [calculate_relevance_score, hne, hirr, h5]
  · intro s h3 h200
    have hne : pyStrip s ≠ "" := by
      intro h
      rw [h] at h200
      simp at h200
    have hirr : matches_irrelevant_pattern (pyStrip s) = false := by
      unfold matches_irrelevant_pattern
      have hx : IRRELEVANT_EXACT.contains (pyStrip s) = false := by
        cases hcc : IRRELEVANT_EXACT.contains (pyStrip s) with
        | false => rfl
        | true => exact absurd (irrelevant_exact_short _ hcc) (by omega)
      have hr : irrelevant_repeat (pyStrip s) = false := by
        cases hrr : irrelevant_repeat (pyStrip s) with
        | false => rfl
        | true =>
          have := matched_keywords_nil_of_repeat _ hrr
          rw [this] at h3
          simp at h3
      have hd : irrelevant_disclaimer (pyStrip s) = false := by
        cases hdd : irrelevant_disclaimer (pyStrip s) with
        | false => rfl
        | true =>
          have := matched_keywords_nil_of_disclaimer _ hdd
          rw [this] at h3
          simp at h3
      rw [hx, hr, hd]
      rfl
    have h5 : ¬ (pyStrip s).length < 5 := by omega
    simp only [calculate_relevance_score, if_neg hne, hirr, Bool.false_eq_true, if_false,
      if_neg h5, if_pos h200]
    have e0 : ¬ (matched_keywords (pyStrip s)).length = 0 := by omega
    have e1 : ¬ (matched_keywords (pyStrip s)).length = 1 := by omega
    have e2 : ¬ (matched_keywords (pyStrip s)).length = 2 := by omega
    rw [if_neg e0, if_neg e1, if_neg e2]
    have hc : (3 : ℚ) ≤ ((matched_keywords (pyStrip s)).length : ℚ) := by exact_mod_cast h3
    have hb : (0.8 : ℚ) ≤ min (0.8 + (((matched_keywords (pyStrip s)).length : ℚ) - 3) * 0.05) 1 :=
      le_min (by nlinarith) (by norm_num)
    exact ⟨le_min (by linarith) (by norm_num), min_le_right _ _⟩

set_option maxRecDepth 1000000 in
/-- Witness for `C6_relevance_score_boundaries`: the empty string scores 0, a
4-character keyword-free string scores 0.2, and a concrete 200-character
string with three distinct domain keywords scores within [0.95, 1]. -/
theorem C6_relevance_score_boundaries_witness :
    calculate_relevance_score "" = 0 ∧
    calculate_relevance_score "abcd" = 0.2 ∧
    (0.95 ≤ calculate_relevance_score "法律や制度や政策xxxxxxxxxxxxxxxxxxxxxxxxxxxxxxxxxxxxxxxxxxxxxxxxxxxxxxxxxxxxxxxxxxxxxxxxxxxxxxxxxxxxxxxxxxxxxxxxxxxxxxxxxxxxxxxxxxxxxxxxxxxxxxxxxxxxxxxxxxxxxxxxxxxxxxxxxxxxxxxxxxxxxxxxxxxxxxxxxxxxxxxxxxxxxxxx" ∧
      calculate_relevance_score "法律や制度や政策xxxxxxxxxxxxxxxxxxxxxxxxxxxxxxxxxxxxxxxxxxxxxxxxxxxxxxxxxxxxxxxxxxxxxxxxxxxxxxxxxxxxxxxxxxxxxxxxxxxxxxxxxxxxxxxxxxxxxxxxxxxxxxxxxxxxxxxxxxxxxxxxxxxxxxxxxxxxxxxxxxxxxxxxxxxxxxxxxxxxxxxxxxxxxxxx" ≤ 1) :=
  ⟨C6_relevance_score_boundaries.1 "" (by decide),
    C6_relevance_score_boundaries.2.2.1 "abcd" (by decide) (by decide),
    C6_relevance_score_boundaries.2.2.2.1 "法律や制度や政策xxxxxxxxxxxxxxxxxxxxxxxxxxxxxxxxxxxxxxxxxxxxxxxxxxxxxxxxxxxxxxxxxxxxxxxxxxxxxxxxxxxxxxxxxxxxxxxxxxxxxxxxxxxxxxxxxxxxxxxxxxxxxxxxxxxxxxxxxxxxxxxxxxxxxxxxxxxxxxxxxxxxxxxxxxxxxxxxxxxxxxxxxxxxxxxx" (by decide) (by decide)⟩
